import Mathlib

/-
  Verification of the iumslib classification, packaging and aggregation pipeline
  (iumsutils.py and plotutils.py), shallowly embedded in Lean 4.

  Strings are modelled as lists of characters (or Lean String where convenient);
  Python float arithmetic is idealised as exact rational arithmetic; code that can
  raise a Python exception is embedded as Option / Except valued functions, with
  none / error standing for the raised exception.
-/

/-- The ASCII part of the Python regex whitespace class, used by the
regex escape for whitespace in isolate_species (iumsutils.py line 81). -/
def isPySpace (c : Char) : Bool :=
  c == ' ' || c == '\t' || c == '\n' || c == '\x0b' || c == '\x0c' || c == '\r'

/-- A character accepted by the group before the trailing digits in the
isolate_species regex: a whitespace character or a hyphen. -/
def isSepChar (c : Char) : Bool := isPySpace c || c == '-'

/-- Embedding of iumsutils.isolate_species (iumsutils.py lines 79 to 81):
the regex substitution that deletes a match of sep digits+ ws* anchored at the end
of the name, where sep is one whitespace character or hyphen.  Because the match
must run to the end of the string, at most one start position is viable, so the
substitution strips the maximal run of trailing whitespace, then the maximal run
of digits before it (at least one), then exactly one separator character; when any
of these is missing the name is returned unchanged. -/
def isolate_species (s : List Char) : List Char :=
  let r1 := (s.reverse).dropWhile isPySpace
  let r2 := r1.dropWhile Char.isDigit
  if r2.length < r1.length then
    match r2 with
    | [] => s
    | c :: rest => if isSepChar c then rest.reverse else s
  else s

/-- The species derivation as the specification words it (spec section 4.1):
strip the trailing digits, together with one optional preceding space or hyphen;
a name without trailing digits is returned unchanged.  This definition follows the
words of the spec and exists only to be compared against isolate_species. -/
def species_per_spec (s : List Char) : List Char :=
  let r1 := s.reverse
  let r2 := r1.dropWhile Char.isDigit
  if r2.length < r1.length then
    match r2 with
    | [] => []
    | c :: rest => if isSepChar c then rest.reverse else r2.reverse
  else s

/-- re.search of a literal pattern pat with an optional literal negative
lookahead bad directly after it, over an already lowercased string (re's
case-insensitive flag is modelled by lowercasing the subject and keeping the
patterns lowercase).  An empty bad means the pattern has no lookahead. -/
def searchCI (pat bad : List Char) : List Char → Bool
  | [] => false
  | c :: rest =>
    (pat.isPrefixOf (c :: rest) && (bad.isEmpty || !((pat ++ bad).isPrefixOf (c :: rest))))
      || searchCI pat bad rest

/-- Entry of the iupac_numbering table of get_carbon_ordering (iumsutils.py
lines 105 to 114): pattern, negative-lookahead tail, carbon number. -/
def aff_meth : List Char × List Char × ℕ := ("meth".data, [], 1)

/-- eth with lookahead (?!er), preventing ethers from being assigned 2. -/
def aff_eth : List Char × List Char × ℕ := ("eth".data, "er".data, 2)

def aff_prop : List Char × List Char × ℕ := ("prop".data, [], 3)

def aff_but : List Char × List Char × ℕ := ("but".data, [], 4)

def aff_pent : List Char × List Char × ℕ := ("pent".data, [], 5)

def aff_hex : List Char × List Char × ℕ := ("hex".data, [], 6)

def aff_hept : List Char × List Char × ℕ := ("hept".data, [], 7)

def aff_oct : List Char × List Char × ℕ := ("oct".data, [], 8)

/-- non with lookahead (?!e), preventing ketones from being assigned 9. -/
def aff_non : List Char × List Char × ℕ := ("non".data, "e".data, 9)

def aff_dec : List Char × List Char × ℕ := ("dec".data, [], 10)

/-- The ordered iupac_numbering table of get_carbon_ordering. -/
def carbonTable : List (List Char × List Char × ℕ) :=
  [aff_meth, aff_eth, aff_prop, aff_but, aff_pent, aff_hex, aff_hept, aff_oct,
    aff_non, aff_dec]

/-- Whether an affix pattern occurs in the lowercased name, honouring its
negative lookahead: the condition of the for-loop in get_carbon_ordering. -/
def affixHit (low : List Char) (e : List Char × List Char × ℕ) : Bool :=
  searchCI e.1 e.2.1 low

/-- The re.search of (iso|sec-) immediately followed by the affix, which decides
the +0.5 offset in get_carbon_ordering (iumsutils.py line 117). -/
def isoSecHit (low : List Char) (e : List Char × List Char × ℕ) : Bool :=
  searchCI ("iso".data ++ e.1) e.2.1 low || searchCI ("sec-".data ++ e.1) e.2.1 low

/-- The for-else loop of get_carbon_ordering over the affix table. -/
def carbonAux : List (List Char × List Char × ℕ) → List Char → ℚ
  | [], _ => 100
  | e :: rest, low =>
    if affixHit low e then (e.2.2 : ℚ) + (if isoSecHit low e then 1/2 else 0)
    else carbonAux rest low

/-- Embedding of iumsutils.get_carbon_ordering (iumsutils.py lines 102 to 119). -/
def get_carbon_ordering (species : List Char) : ℚ :=
  carbonAux carbonTable (species.map Char.toLower)

/-- Lexicographic code-point comparison of character lists: the order Python
sorted uses on strings. -/
def lexLe : List Char → List Char → Bool
  | [], _ => true
  | _ :: _, [] => false
  | a :: as, b :: bs => if a = b then lexLe as bs else decide (a < b)

/-- Lexicographic order on strings, as a proposition. -/
def strLe (a b : String) : Prop := lexLe a.data b.data = true

instance : DecidableRel strLe := fun a b => by unfold strLe; infer_instance

/-- Embedding of sorted(set(data)) as used by iumsutils.ordered_and_counted
(iumsutils.py lines 26 to 30): the distinct values in ascending lexicographic
order. -/
def sorted_set (l : List String) : List String := List.insertionSort strLe l.dedup

/-- Embedding of iumsutils.one_hot_mapping (iumsutils.py lines 63 to 67) as an
association list: each value of the input is mapped to the indicator vector of
its occurrences in the input. -/
def one_hot_mapping (items : List String) : List (String × List ℕ) :=
  items.map (fun value => (value, items.map (fun val => if val = value then 1 else 0)))

/-- Whether the (lowercase) suffix pattern matches at the end of the name,
case-insensitively: re.search of the pattern anchored at the string end with the
ignore-case flag, as in get_family (iumsutils.py line 97). -/
def endsWithCI (pat s : List Char) : Bool := pat.isSuffixOf (s.map Char.toLower)

/-- The ordered iupac_suffices table of get_family (iumsutils.py lines 86 to 95). -/
def familyTable : List (List Char × String) :=
  [("ate".data, "Acetates"), ("ol".data, "Alcohols"), ("al".data, "Aldehydes"),
   ("ane".data, "Alkanes"), ("ene".data, "Alkenes"), ("yne".data, "Alkynes"),
   ("ine".data, "Amines"), ("oic acid".data, "Carboxylic Acids"),
   ("ether".data, "Ethers"), ("one".data, "Ketones")]

/-- The for-else loop of get_family over the suffix table. -/
def familyAux : List (List Char × String) → List Char → String
  | [], _ => "Unknown"
  | e :: rest, sp => if endsWithCI e.1 sp then e.2 else familyAux rest sp

/-- Embedding of iumsutils.get_family (iumsutils.py lines 83 to 100): the suffix
patterns are tested against the isolated species of the given name, in table
order, and the first match wins; with no match the family is "Unknown".  Being a
total function, it never raises, matching the spec failure-mode sentence. -/
def get_family (name : List Char) : String := familyAux familyTable (isolate_species name)

/-- isolate_species lifted to Lean strings. -/
def speciesOf (name : String) : String := String.mk (isolate_species name.data)

/-- get_family lifted to Lean strings. -/
def familyOf (name : String) : String := get_family name.data

/-- The rep_flags replacement table of jsonize (iumsutils.py lines 147 to 157). -/
def rep_flags : List (String × String) :=
  [("MIBK", "Methyl-iBu-Ketone"), ("Propanol", "1-Propanol"), ("Butanol", "1-Butanol"),
   ("Pentanol", "1-Pentanol"), ("Hexanol", "1-Hexanol"), ("Heptanol", "1-Heptanol"),
   ("Octanol", "1-Octanol"), ("IsoButanol", "Isobutanol"), ("Iso-Butanol", "Isobutanol"),
   ("Sec Butyl Acetate", "Sec-Butyl Acetate"), ("Secbutyl Acetate", "Sec-Butyl Acetate")]

/-- Python rep_flags.get(species, species). -/
def flagLookup (s : String) : String :=
  ((rep_flags.find? (fun p => p.1 == s)).map Prod.snd).getD s

/-- The name correction of jsonize (iumsutils.py lines 162 to 164): the species,
always a prefix of the name since isolate_species only removes a suffix, is
replaced at the start of the name by its canonical spelling.  The regex
substitution anchored at the string start is modelled as literal prefix
replacement, which is its behaviour on the regex-metacharacter-free species
names the table is meant for. -/
def correctName (name : String) : String :=
  String.mk ((flagLookup (speciesOf name)).data ++ name.data.drop (speciesOf name).data.length)

/-- The per-row name transformation of jsonize: correction when correct_names. -/
def cName (correct : Bool) (n : String) : String := if correct then correctName n else n

/-- One Instance record of the packaged dataset (iumsutils.py line 121 and the
chem_data construction at line 177). -/
structure ChemRecord where
  name : String
  species : String
  family : String
  spectrum : List ℚ
  vector : List ℕ
deriving DecidableEq, Inhabited

/-- The packaged_data dictionary built by jsonize (iumsutils.py lines 179 to
187).  The Counter dictionaries are modelled as association lists over the
sorted distinct keys, the same mapping as collections.Counter. -/
structure Packaged where
  chem_data : List ChemRecord
  species : List String
  families : List String
  family_mapping : List (String × List ℕ)
  spectrum_size : ℕ
  species_count : List (String × ℕ)
  family_count : List (String × ℕ)
deriving DecidableEq, Inhabited

/-- Embedding of iumsutils.ordered_and_counted (iumsutils.py lines 26 to 30). -/
def ordered_and_counted (l : List String) : List String × List (String × ℕ) :=
  ((sorted_set l), (sorted_set l).map (fun s => (s, l.count s)))

/-- Python dict insertion temp_dict[name] = spectrum: an existing key keeps its
position and receives the new value, a new key is appended at the end. -/
def upsert (k : String) (v : List ℚ) : List (String × List ℚ) → List (String × List ℚ)
  | [] => [(k, v)]
  | (k0, v0) :: rest => if k0 = k then (k, v) :: rest else (k0, v0) :: upsert k v rest

/-- Lookup of the one-hot vector in the family mapping
(family_mapping[get_family(name)] at iumsutils.py line 177); the default is
never reached because the mapping is built over every family of the dataset. -/
def mappingLookup (m : List (String × List ℕ)) (k : String) : List ℕ :=
  ((m.find? (fun p => p.1 == k)).map Prod.snd).getD []

/-- The packaging step of jsonize after the reading loop (iumsutils.py lines 174
to 187), over the final temp_dict and the established spectrum size. -/
def package (temp : List (String × List ℚ)) (sz : ℕ) : Packaged :=
  { chem_data := temp.map (fun p =>
      { name := p.1
        species := speciesOf p.1
        family := familyOf p.1
        spectrum := p.2
        vector := mappingLookup
          (one_hot_mapping (ordered_and_counted ((temp.map Prod.fst).map familyOf)).1)
          (familyOf p.1) })
    species := (ordered_and_counted ((temp.map Prod.fst).map speciesOf)).1
    families := (ordered_and_counted ((temp.map Prod.fst).map familyOf)).1
    family_mapping := one_hot_mapping (ordered_and_counted ((temp.map Prod.fst).map familyOf)).1
    spectrum_size := sz
    species_count := (ordered_and_counted ((temp.map Prod.fst).map speciesOf)).2
    family_count := (ordered_and_counted ((temp.map Prod.fst).map familyOf)).2 }

/-- Errors jsonize can raise: the ValueError for a spectrum length mismatch,
carrying the offending instance name, and the NameError hit when the csv has no
rows (spectrum_size is then never assigned before packaging uses it). -/
inductive JsonizeError where
  | shapeMismatch (name : String)
  | noRows
deriving DecidableEq

/-- The csv reading loop of jsonize (iumsutils.py lines 160 to 172): per row,
name correction, then the length check against the established spectrum size,
then insertion into temp_dict. -/
def jsonizeAux (correct : Bool) (sz : ℕ) :
    List (String × List ℚ) → List (String × List ℚ) →
      Except String (List (String × List ℚ))
  | acc, [] => Except.ok acc
  | acc, (name, spectrum) :: rest =>
    if spectrum.length ≠ sz then Except.error (cName correct name)
    else jsonizeAux correct sz (upsert (cName correct name) spectrum acc) rest

/-- Embedding of iumsutils.jsonize (iumsutils.py lines 143 to 192): the reading
loop with the first spectrum length as the reference size (the first row can
never fail its own check), followed by packaging.  An error carries no partial
output: the json file is only written after the loop completes. -/
def jsonize (correct : Bool) : List (String × List ℚ) → Except JsonizeError Packaged
  | [] => Except.error JsonizeError.noRows
  | (name, spectrum) :: rest =>
    match jsonizeAux correct spectrum.length [] ((name, spectrum) :: rest) with
    | Except.error n => Except.error (JsonizeError.shapeMismatch n)
    | Except.ok temp => Except.ok (package temp spectrum.length)

/-- Python dict lookup temp_dict[n] on the association-list model. -/
def alookup : List (String × List ℚ) → String → Option (List ℚ)
  | [], _ => none
  | (k0, v0) :: rest, k => if k0 = k then some v0 else alookup rest k

/-- The rows after the per-row name transformation of the reading loop. -/
def procRows (correct : Bool) (rows : List (String × List ℚ)) : List (String × List ℚ) :=
  rows.map (fun r => (cName correct r.1, r.2))

/-- The spectrum of the LAST row whose (corrected) name is n, if any. -/
def lastSpectrumFor (correct : Bool) (rows : List (String × List ℚ)) (n : String) :
    Option (List ℚ) :=
  (((procRows correct rows).filter (fun p => decide (p.1 = n))).getLast?).map Prod.snd

/-- A concrete row sequence with a duplicated instance name. -/
def rowsDup : List (String × List ℚ) :=
  [("Ethanol-1", [1, 2]), ("Ethanol-1", [3, 4]), ("Methanol-1", [5, 6])]

/-- The packaged dataset jsonize builds from rowsDup. -/
def pkgDup : Packaged := ((jsonize false rowsDup).toOption).getD default

/-- A point of the complex plane with exact rational coordinates: the
idealisation of the Python complex numbers used by the radar-chart classes. -/
structure CQ where
  re : ℚ
  im : ℚ
deriving DecidableEq, Inhabited

def CQ.add (z w : CQ) : CQ := ⟨z.re + w.re, z.im + w.im⟩

/-- Multiplication of a point by a real (axial value times pole, and the
centroid scaling by N). -/
def CQ.scale (a : ℚ) (z : CQ) : CQ := ⟨a * z.re, a * z.im⟩

/-- Division of a point by an integer count (the len(points) divisor). -/
def CQ.divN (z : CQ) (n : ℕ) : CQ := ⟨z.re / n, z.im / n⟩

/-- Python sum over a point list (addition is associative and commutative over
exact rationals, so the bracketing is irrelevant). -/
def csum : List CQ → CQ
  | [] => ⟨0, 0⟩
  | z :: zs => CQ.add z (csum zs)

/-- Base_RC.__init__ centroid (plotutils.py lines 76 to 82):
sum(self.points)/len(points), with no guard; for an empty point list Python
evaluates 0/0 and raises ZeroDivisionError, embedded as none. -/
def base_centroid (points : List CQ) : Option CQ :=
  if points.isEmpty then none else some ((csum points).divN points.length)

/-- Sequencing of fallible computations over a list: an exception anywhere
aborts the whole comprehension, as in the Python list comprehensions. -/
def omap {α β : Type} (f : α → Option β) : List α → Option (List β)
  | [] => some []
  | a :: as =>
    match f a with
    | none => none
    | some b =>
      match omap f as with
      | none => none
      | some bs => some (b :: bs)

/-- The axial points of an instance (plotutils.py line 107): each axial value
times its pole.  The pole list is the configuration Mapped_Unit_Circle installs
once per dataset (the N-th roots of unity, one per family axis); the centroid
claims are about the aggregation structure, so the poles are a parameter here,
with the exactly representable root lists below used for concrete inputs. -/
def instance_points (poles : List CQ) (aavs : List ℚ) : List CQ :=
  List.zipWith CQ.scale aavs poles

/-- Instance_RC centroid (plotutils.py lines 103 to 110): the Base_RC mean of
the axial points, then multiplied in place by N = number of poles. -/
def instance_centroid (poles : List CQ) (aavs : List ℚ) : Option CQ :=
  (base_centroid (instance_points poles aavs)).map (CQ.scale ((poles.length : ℚ)))

/-- The Base_RC mean of the axial points BEFORE the in-place scaling by N: the
"(unscaled) centroid" of the spec words. -/
def instance_centroid_unscaled (poles : List CQ) (aavs : List ℚ) : Option CQ :=
  base_centroid (instance_points poles aavs)

/-- Species_RC centroid (plotutils.py lines 112 to 116): the Base_RC mean of the
Instance_RC centroids of the instances of the species, which at that point have
already been scaled by N. -/
def species_centroid (poles : List CQ) (insts : List (List ℚ)) : Option CQ :=
  match omap (instance_centroid poles) insts with
  | none => none
  | some cs => base_centroid cs

/-- The species centroid as the spec words it (section 3): the mean of the
UNSCALED centroids of the instances.  This definition follows the words of the
spec and exists only to be compared against species_centroid. -/
def species_centroid_per_spec (poles : List CQ) (insts : List (List ℚ)) : Option CQ :=
  match omap (instance_centroid_unscaled poles) insts with
  | none => none
  | some cs => base_centroid cs

/-- Family_RC centroid (plotutils.py lines 118 to 122): the Base_RC mean of the
Species_RC centroids of the species of the family, one summand per species
whatever its instance count. -/
def family_centroid (poles : List CQ) (specs : List (List (List ℚ))) : Option CQ :=
  match omap (species_centroid poles) specs with
  | none => none
  | some cs => base_centroid cs

/-- The square roots of unity, the poles Mapped_Unit_Circle computes for N = 2. -/
def rootsOfUnity2 : List CQ := [⟨1, 0⟩, ⟨-1, 0⟩]

/-- The fourth roots of unity, the poles Mapped_Unit_Circle computes for N = 4. -/
def rootsOfUnity4 : List CQ := [⟨1, 0⟩, ⟨0, 1⟩, ⟨-1, 0⟩, ⟨0, -1⟩]

/-- A species with a single instance whose axial values put its centroid at 1. -/
def specA : List (List ℚ) := [[1, 0, 0, 0]]

/-- A species with three identical instances whose centroids all sit at i. -/
def specB : List (List ℚ) := [[0, 1, 0, 0], [0, 1, 0, 0], [0, 1, 0, 0]]

/-- Python max over a list: none on the empty list (ValueError), otherwise the
left fold of the binary max over the elements. -/
def pymax : List ℚ → Option ℚ
  | [] => none
  | x :: xs => some (xs.foldl max x)

/-- Rounding to the nearest integer with ties to even, the rule of Python
round. -/
def roundHalfEven (q : ℚ) : ℤ :=
  if q - (⌊q⌋ : ℚ) < 1 / 2 then ⌊q⌋
  else if q - (⌊q⌋ : ℚ) > 1 / 2 then ⌊q⌋ + 1
  else if ⌊q⌋ % 2 = 0 then ⌊q⌋ else ⌊q⌋ + 1

/-- Python round(x, 4) (the precision=4 default of Fermi_Plot), idealised over
exact rationals. -/
def pyRound4 (q : ℚ) : ℚ := ((roundHalfEven (q * 10000) : ℚ)) / 10000

/-- Embedding of the score computation of Fermi_Plot.__init__ (plotutils.py
lines 209 to 220): the targets comprehension indexes every prediction at the
hot bit (IndexError when out of range), an instance is counted correct when
max(pred) equals pred[hotbit], and the score is the correct fraction rounded to
four decimals; an empty prediction list raises ZeroDivisionError.  The sorting
of the targets only affects the plotted line, not the score. -/
def fermi_score (predictions : List (List ℚ)) (hotbit : ℕ) : Option ℚ :=
  match omap (fun pred => pred.get? hotbit) predictions with
  | none => none
  | some _ =>
    match omap (fun pred =>
        match pymax pred, pred.get? hotbit with
        | some m, some t => some (decide (m = t))
        | _, _ => none) predictions with
    | none => none
    | some corrects =>
      if predictions.length = 0 then none
      else some (pyRound4 ((corrects.count true : ℚ) / (predictions.length : ℚ)))

/-- The index of the first occurrence of a value in a list. -/
def firstIdxOf (m : ℚ) : List ℚ → Option ℕ
  | [] => none
  | x :: xs => if x = m then some 0 else (firstIdxOf m xs).map (· + 1)

/-- The argmax of the spec words: the first index attaining the maximum. -/
def argmaxI (l : List ℚ) : Option ℕ :=
  match pymax l with
  | none => none
  | some m => firstIdxOf m l

/-- The fraction of instances whose argmax is the true family axis, following
the parenthetical of the claim; it exists only to be compared against
fermi_score. -/
def argmax_fraction (predictions : List (List ℚ)) (hotbit : ℕ) : ℚ :=
  ((predictions.countP (fun pred => decide (argmaxI pred = some hotbit))) : ℚ)
    / (predictions.length : ℚ)

theorem dropWhile_append_of_all {α : Type} (p : α → Bool) (l1 l2 : List α)
    (h : ∀ x ∈ l1, p x = true) :
    (l1 ++ l2).dropWhile p = l2.dropWhile p := by
  induction l1 with
  | nil => rfl
  | cons a t ih =>
    have ha : p a = true := h a (List.mem_cons_self a t)
    simp only [List.cons_append, List.dropWhile_cons, ha, if_true]
    exact ih (fun x hx => h x (List.mem_cons_of_mem a hx))

theorem dropWhile_cons_false {α : Type} (p : α → Bool) (a : α) (l : List α)
    (h : p a = false) : (a :: l).dropWhile p = a :: l := by
  simp [List.dropWhile_cons, h]

theorem not_pyspace_of_digit (c : Char) (h : c.isDigit = true) : isPySpace c = false := by
  cases hsp : isPySpace c
  · rfl
  · exfalso
    unfold isPySpace at hsp
    simp only [Bool.or_eq_true, beq_iff_eq] at hsp
    rcases hsp with ((((rfl | rfl) | rfl) | rfl) | rfl) | rfl <;> exact absurd h (by decide)

theorem not_digit_of_sep (c : Char) (h : isSepChar c = true) : c.isDigit = false := by
  unfold isSepChar isPySpace at h
  simp only [Bool.or_eq_true, beq_iff_eq] at h
  rcases h with (((((rfl | rfl) | rfl) | rfl) | rfl) | rfl) | rfl <;> decide

theorem mem_takeWhile_sat {α : Type} (p : α → Bool) (l : List α) :
    ∀ x ∈ l.takeWhile p, p x = true := by
  induction l with
  | nil => intro x hx; simp [List.takeWhile] at hx
  | cons a t ih =>
    intro x hx
    rw [List.takeWhile_cons] at hx
    by_cases ha : p a = true
    · rw [if_pos ha] at hx
      rcases List.mem_cons.mp hx with rfl | hx
      · exact ha
      · exact ih x hx
    · rw [if_neg ha] at hx
      exact absurd hx (List.not_mem_nil x)

/-- C1 counterexample: the claim requires the trailing digits to be stripped even
when no space or hyphen precedes them ("only optionally preceded"); the code
leaves the name "Ethanol1" unchanged while the spec reading strips it to
"Ethanol". -/
theorem c1_counterexample :
    species_per_spec "Ethanol1".data = "Ethanol".data
    ∧ isolate_species "Ethanol1".data = "Ethanol1".data
    ∧ "Ethanol1".data ≠ "Ethanol".data := by
  refine ⟨by decide, by decide, by decide⟩

/-- C1 (amended): isolate_species strips a trailing block consisting of one
mandatory separator (whitespace or hyphen), then at least one digit, then any
trailing whitespace; every name that does not end in such a block - including
names whose trailing digits are not preceded by a space or hyphen - is returned
unchanged. -/
theorem isolate_species_characterization :
    (∀ (p d w : List Char) (c : Char), d ≠ [] → (∀ x ∈ d, x.isDigit = true) →
      (∀ x ∈ w, isPySpace x = true) → isSepChar c = true →
      isolate_species (p ++ c :: (d ++ w)) = p)
    ∧ (∀ s : List Char, isolate_species s = s ∨
        ∃ (p d w : List Char) (c : Char), d ≠ [] ∧ (∀ x ∈ d, x.isDigit = true) ∧
          (∀ x ∈ w, isPySpace x = true) ∧ isSepChar c = true ∧
          s = p ++ c :: (d ++ w) ∧ isolate_species s = p) := by
  constructor
  · intro p d w c hd hdig hws hsep
    obtain ⟨y, ys, hrev⟩ : ∃ y ys, d.reverse = y :: ys := by
      cases hdr : d.reverse with
      | nil => exact absurd (List.reverse_eq_nil_iff.mp hdr) hd
      | cons a t => exact ⟨a, t, rfl⟩
    have hrevdig : ∀ x ∈ d.reverse, x.isDigit = true :=
      fun x hx => hdig x (List.mem_reverse.mp hx)
    have hwrev : ∀ x ∈ w.reverse, isPySpace x = true :=
      fun x hx => hws x (List.mem_reverse.mp hx)
    have hy : y.isDigit = true := hrevdig y (by rw [hrev]; exact List.mem_cons_self y ys)
    have hsrev : (p ++ c :: (d ++ w)).reverse = w.reverse ++ (d.reverse ++ (c :: p.reverse)) := by
      simp
    have h1 : ((p ++ c :: (d ++ w)).reverse).dropWhile isPySpace
        = d.reverse ++ (c :: p.reverse) := by
      rw [hsrev, dropWhile_append_of_all isPySpace _ _ hwrev, hrev, List.cons_append,
        dropWhile_cons_false _ _ _ (not_pyspace_of_digit y hy)]
    have h2 : (d.reverse ++ (c :: p.reverse)).dropWhile Char.isDigit = c :: p.reverse := by
      rw [dropWhile_append_of_all Char.isDigit _ _ hrevdig,
        dropWhile_cons_false _ _ _ (not_digit_of_sep c hsep)]
    have hlen : (c :: p.reverse).length < (d.reverse ++ (c :: p.reverse)).length := by
      have hdpos : 0 < d.length := List.length_pos.mpr hd
      simp only [List.length_append, List.length_cons, List.length_reverse]
      omega
    simp only [isolate_species]
    rw [h1, h2, if_pos hlen]
    simp [hsep]
  · intro s
    by_cases hlt : ((s.reverse.dropWhile isPySpace).dropWhile Char.isDigit).length
        < (s.reverse.dropWhile isPySpace).length
    · cases hr2 : (s.reverse.dropWhile isPySpace).dropWhile Char.isDigit with
      | nil =>
        left
        simp only [isolate_species]
        rw [if_pos hlt, hr2]
      | cons c rest =>
        by_cases hsep : isSepChar c = true
        · right
          have hR1 : (s.reverse.dropWhile isPySpace).takeWhile Char.isDigit ++ (c :: rest)
              = s.reverse.dropWhile isPySpace := by
            rw [← hr2]; exact List.takeWhile_append_dropWhile _ _
          have hR : (s.reverse.takeWhile isPySpace) ++ (s.reverse.dropWhile isPySpace)
              = s.reverse := List.takeWhile_append_dropWhile _ _
          have hDne : (s.reverse.dropWhile isPySpace).takeWhile Char.isDigit ≠ [] := by
            intro h0
            rw [h0, List.nil_append] at hR1
            rw [hr2, ← hR1] at hlt
            exact lt_irrefl _ hlt
          have hsdecomp : s = rest.reverse ++ c ::
              (((s.reverse.dropWhile isPySpace).takeWhile Char.isDigit).reverse
                ++ (s.reverse.takeWhile isPySpace).reverse) := by
            have hsr : s.reverse = (s.reverse.takeWhile isPySpace)
                ++ ((s.reverse.dropWhile isPySpace).takeWhile Char.isDigit ++ (c :: rest)) := by
              rw [hR1, hR]
            calc s = s.reverse.reverse := (List.reverse_reverse s).symm
              _ = ((s.reverse.takeWhile isPySpace)
                  ++ ((s.reverse.dropWhile isPySpace).takeWhile Char.isDigit
                    ++ (c :: rest))).reverse := by rw [← hsr]
              _ = rest.reverse ++ c ::
                  (((s.reverse.dropWhile isPySpace).takeWhile Char.isDigit).reverse
                    ++ (s.reverse.takeWhile isPySpace).reverse) := by
                simp [List.append_assoc]
          refine ⟨rest.reverse,
            ((s.reverse.dropWhile isPySpace).takeWhile Char.isDigit).reverse,
            (s.reverse.takeWhile isPySpace).reverse, c, ?_, ?_, ?_, hsep, ?_, ?_⟩
          · intro h0
            exact hDne (List.reverse_eq_nil_iff.mp h0)
          · intro x hx
            exact mem_takeWhile_sat Char.isDigit _ x (List.mem_reverse.mp hx)
          · intro x hx
            exact mem_takeWhile_sat isPySpace _ x (List.mem_reverse.mp hx)
          · exact hsdecomp
          · simp only [isolate_species]
            rw [if_pos hlt, hr2]
            simp [hsep]
        · left
          simp only [isolate_species]
          rw [if_pos hlt, hr2]
          simp [hsep]
    · left
      simp only [isolate_species]
      rw [if_neg hlt]

/-- C1 witness: the amended strip characterization applied to the concrete name
"Ethanol-1". -/
theorem c1_witness :
    isolate_species ("Ethanol".data ++ '-' :: ("1".data ++ ([] : List Char)))
      = "Ethanol".data :=
  isolate_species_characterization.1 "Ethanol".data "1".data [] '-'
    (by decide) (by decide) (by decide) (by decide)

/-- C2 counterexample: the spec example demands carbon_rank("Iso-Butanol") = 4.5,
but the code offset regex requires "iso" to immediately precede the affix, and in
"Iso-Butanol" a hyphen intervenes between "Iso" and "But", so the code returns 4. -/
theorem c2_counterexample :
    get_carbon_ordering "Iso-Butanol".data = 4 ∧ (4 : ℚ) ≠ 9 / 2 := by
  constructor
  · have h1 : affixHit ("Iso-Butanol".data.map Char.toLower) aff_meth = false := by decide
    have h2 : affixHit ("Iso-Butanol".data.map Char.toLower) aff_eth = false := by decide
    have h3 : affixHit ("Iso-Butanol".data.map Char.toLower) aff_prop = false := by decide
    have h4 : affixHit ("Iso-Butanol".data.map Char.toLower) aff_but = true := by decide
    have h5 : isoSecHit ("Iso-Butanol".data.map Char.toLower) aff_but = false := by decide
    unfold get_carbon_ordering carbonTable
    simp only [carbonAux, h1, h2, h3, h4, h5, Bool.false_eq_true, if_false, if_true]
    norm_num [aff_but]
  · norm_num

theorem carbonAux_append (low : List Char) (pre : List (List Char × List Char × ℕ))
    (e : List Char × List Char × ℕ) (post : List (List Char × List Char × ℕ))
    (hpre : ∀ x ∈ pre, affixHit low x = false) (he : affixHit low e = true) :
    carbonAux (pre ++ e :: post) low
      = (e.2.2 : ℚ) + (if isoSecHit low e then 1/2 else 0) := by
  induction pre with
  | nil => simp [carbonAux, he]
  | cons a t ih =>
    have ha : affixHit low a = false := hpre a (List.mem_cons_self a t)
    simp only [List.cons_append, carbonAux, ha, Bool.false_eq_true, if_false]
    exact ih (fun x hx => hpre x (List.mem_cons_of_mem a hx))

theorem carbonAux_no_hit (low : List Char) (tbl : List (List Char × List Char × ℕ))
    (h : ∀ e ∈ tbl, affixHit low e = false) : carbonAux tbl low = 100 := by
  induction tbl with
  | nil => rfl
  | cons a t ih =>
    have ha : affixHit low a = false := h a (List.mem_cons_self a t)
    simp only [carbonAux, ha, Bool.false_eq_true, if_false]
    exact ih (fun x hx => h x (List.mem_cons_of_mem a hx))

/-- C2 (amended): get_carbon_ordering returns the carbon number of the FIRST
affix of the table that occurs in the name (case-insensitively, anywhere in the
word), plus 0.5 exactly when "iso" or "sec-" occurs immediately before that
affix; names matching no affix return the sentinel 100.  The offset requires
direct adjacency, so get_carbon_ordering "Isobutanol" = 4.5 while the hyphenated
"Iso-Butanol" of the claim is ranked 4. -/
theorem carbon_rank_characterization :
    (∀ (s : List Char) (pre : List (List Char × List Char × ℕ))
       (e : List Char × List Char × ℕ) (post : List (List Char × List Char × ℕ)),
       carbonTable = pre ++ e :: post →
       affixHit (s.map Char.toLower) e = true →
       (∀ x ∈ pre, affixHit (s.map Char.toLower) x = false) →
       get_carbon_ordering s
         = (e.2.2 : ℚ) + (if isoSecHit (s.map Char.toLower) e then 1/2 else 0))
    ∧ (∀ s : List Char, (∀ e ∈ carbonTable, affixHit (s.map Char.toLower) e = false) →
        get_carbon_ordering s = 100)
    ∧ get_carbon_ordering "Isobutanol".data = 9 / 2 := by
  have g1 : affixHit ("Isobutanol".data.map Char.toLower) aff_meth = false := by decide
  have g2 : affixHit ("Isobutanol".data.map Char.toLower) aff_eth = false := by decide
  have g3 : affixHit ("Isobutanol".data.map Char.toLower) aff_prop = false := by decide
  have g4 : affixHit ("Isobutanol".data.map Char.toLower) aff_but = true := by decide
  have g5 : isoSecHit ("Isobutanol".data.map Char.toLower) aff_but = true := by decide
  refine ⟨?_, ?_, ?_⟩
  · intro s pre e post htbl he hpre
    unfold get_carbon_ordering
    rw [htbl]
    exact carbonAux_append _ pre e post hpre he
  · intro s h
    unfold get_carbon_ordering
    exact carbonAux_no_hit _ carbonTable h
  · unfold get_carbon_ordering carbonTable
    simp only [carbonAux, g1, g2, g3, g4, g5, Bool.false_eq_true, if_false, if_true]
    norm_num [aff_but]

/-- C2 witness: the first-match characterization applied to "Iso-Butanol",
whose first matching affix is "but" with carbon number 4. -/
theorem c2_witness :
    get_carbon_ordering "Iso-Butanol".data
      = ((4 : ℕ) : ℚ) + (if isoSecHit ("Iso-Butanol".data.map Char.toLower) aff_but
          then 1/2 else 0) :=
  carbon_rank_characterization.1 "Iso-Butanol".data [aff_meth, aff_eth, aff_prop]
    aff_but [aff_pent, aff_hex, aff_hept, aff_oct, aff_non, aff_dec]
    rfl (by decide) (by decide)

theorem lexLe_total : ∀ a b : List Char, lexLe a b = true ∨ lexLe b a = true := by
  intro a
  induction a with
  | nil => intro b; left; rfl
  | cons x xs ih =>
    intro b
    cases b with
    | nil => right; rfl
    | cons y ys =>
      by_cases hxy : x = y
      · subst hxy
        rcases ih ys with h | h
        · left; simp [lexLe, h]
        · right; simp [lexLe, h]
      · rcases lt_or_gt_of_ne hxy with hlt | hgt
        · left; simp [lexLe, hxy]; exact hlt
        · right; simp [lexLe, Ne.symm hxy]; exact hgt

theorem lexLe_trans : ∀ a b c : List Char,
    lexLe a b = true → lexLe b c = true → lexLe a c = true := by
  intro a
  induction a with
  | nil => intro b c _ _; rfl
  | cons x xs ih =>
    intro b c hab hbc
    cases b with
    | nil => simp [lexLe] at hab
    | cons y ys =>
      cases c with
      | nil => simp [lexLe] at hbc
      | cons z zs =>
        by_cases hxy : x = y
        · subst hxy
          by_cases hyz : x = z
          · subst hyz
            simp only [lexLe, if_pos rfl] at hab hbc ⊢
            exact ih ys zs hab hbc
          · simpa [lexLe, hyz] using hbc
        · by_cases hyz : y = z
          · subst hyz
            simpa [lexLe, hxy] using hab
          · by_cases hxz : x = z
            · subst hxz
              simp [lexLe, hxy] at hab
              simp [lexLe, hyz] at hbc
              exact absurd (lt_trans hab hbc) (lt_irrefl x)
            · simp [lexLe, hxy] at hab
              simp [lexLe, hyz] at hbc
              simp [lexLe, hxz]
              exact lt_trans hab hbc

theorem lexLe_antisymm : ∀ a b : List Char,
    lexLe a b = true → lexLe b a = true → a = b := by
  intro a
  induction a with
  | nil =>
    intro b hab hba
    cases b with
    | nil => rfl
    | cons y ys => simp [lexLe] at hba
  | cons x xs ih =>
    intro b hab hba
    cases b with
    | nil => simp [lexLe] at hab
    | cons y ys =>
      by_cases hxy : x = y
      · subst hxy
        simp only [lexLe, if_pos rfl] at hab hba
        rw [ih ys hab hba]
      · simp [lexLe, hxy] at hab
        simp [lexLe, Ne.symm hxy] at hba
        exact absurd (lt_trans hab hba) (lt_irrefl x)

theorem count_one_map_zero (v : String) (S : List String) (h : v ∉ S) :
    (S.map (fun u => if u = v then (1 : ℕ) else 0)).count 1 = 0 := by
  induction S with
  | nil => rfl
  | cons a t ih =>
    have ha : a ≠ v := fun e => h (e ▸ List.mem_cons_self a t)
    rw [List.map_cons, if_neg ha, List.count_cons_of_ne (by decide)]
    exact ih (fun hv => h (List.mem_cons_of_mem a hv))

theorem count_one_map_one (v : String) (S : List String) (hS : S.Nodup) (hv : v ∈ S) :
    (S.map (fun u => if u = v then (1 : ℕ) else 0)).count 1 = 1 := by
  induction S with
  | nil => cases hv
  | cons a t ih =>
    rcases List.mem_cons.mp hv with rfl | hvt
    · have hnotin : v ∉ t := (List.nodup_cons.mp hS).1
      rw [List.map_cons, if_pos rfl, List.count_cons_self,
        count_one_map_zero v t hnotin]
    · have ha : a ≠ v := by
        rintro rfl
        exact (List.nodup_cons.mp hS).1 hvt
      rw [List.map_cons, if_neg ha, List.count_cons_of_ne (by decide)]
      exact ih (List.nodup_cons.mp hS).2 hvt

/-- C3: in the pipeline (jsonize, iumsutils.py lines 174 to 176) the labels are
deduplicated and lexicographically sorted by ordered_and_counted before
one_hot_mapping is applied; the resulting vectors all have length equal to the
number of distinct labels and exactly one set bit, and the whole mapping is
invariant under permutation of the input label collection. -/
theorem one_hot_encoder_props :
    ∀ (l l' : List String), l.Perm l' →
      (sorted_set l).Sorted strLe
      ∧ (sorted_set l).Nodup
      ∧ (sorted_set l).length = l.dedup.length
      ∧ (∀ v vec, (v, vec) ∈ one_hot_mapping (sorted_set l) →
          vec.length = l.dedup.length ∧ vec.count 1 = 1 ∧ ∀ b ∈ vec, b = 0 ∨ b = 1)
      ∧ one_hot_mapping (sorted_set l) = one_hot_mapping (sorted_set l') := by
  haveI : IsTotal String strLe := ⟨fun a b => lexLe_total a.data b.data⟩
  haveI : IsTrans String strLe := ⟨fun a b c => lexLe_trans a.data b.data c.data⟩
  haveI : IsAntisymm String strLe := ⟨fun a b hab hba => by
    have h := lexLe_antisymm a.data b.data hab hba
    cases a; cases b; exact congrArg String.mk h⟩
  intro l l' hperm
  have hss : (sorted_set l).Perm l.dedup := List.perm_insertionSort strLe l.dedup
  have hnd : (sorted_set l).Nodup := (hss.nodup_iff).mpr (List.nodup_dedup l)
  refine ⟨List.sorted_insertionSort strLe l.dedup, hnd, hss.length_eq, ?_, ?_⟩
  · intro v vec hmem
    obtain ⟨u, hu, hpair⟩ := List.mem_map.mp hmem
    obtain ⟨rfl, rfl⟩ := Prod.mk.injEq .. ▸ hpair
    refine ⟨by rw [List.length_map]; exact hss.length_eq, ?_, ?_⟩
    · exact count_one_map_one u (sorted_set l) hnd hu
    · intro b hb
      obtain ⟨w, _, hw⟩ := List.mem_map.mp hb
      by_cases hwv : w = u
      · right; rw [← hw, if_pos hwv]
      · left; rw [← hw, if_neg hwv]
  · have heq : sorted_set l = sorted_set l' := by
      refine List.eq_of_perm_of_sorted ?_
        (List.sorted_insertionSort strLe l.dedup)
        (List.sorted_insertionSort strLe l'.dedup)
      exact hss.trans ((hperm.dedup).trans (List.perm_insertionSort strLe l'.dedup).symm)
    rw [heq]

/-- C3 witness: the encoder properties applied to a concrete three-label
collection and a permutation of it. -/
theorem c3_witness :
    (["b", "a", "b"] : List String).Perm ["a", "b", "b"]
    ∧ one_hot_mapping (sorted_set ["b", "a", "b"])
      = one_hot_mapping (sorted_set ["a", "b", "b"]) :=
  ⟨by decide, (one_hot_encoder_props ["b", "a", "b"] ["a", "b", "b"] (by decide)).2.2.2.2⟩

theorem familyAux_append (sp : List Char) (pre : List (List Char × String))
    (e : List Char × String) (post : List (List Char × String))
    (hpre : ∀ x ∈ pre, endsWithCI x.1 sp = false) (he : endsWithCI e.1 sp = true) :
    familyAux (pre ++ e :: post) sp = e.2 := by
  induction pre with
  | nil => simp [familyAux, he]
  | cons a t ih =>
    have ha : endsWithCI a.1 sp = false := hpre a (List.mem_cons_self a t)
    simp only [List.cons_append, familyAux, ha, Bool.false_eq_true, if_false]
    exact ih (fun x hx => hpre x (List.mem_cons_of_mem a hx))

theorem familyAux_no_hit (sp : List Char) (tbl : List (List Char × String))
    (h : ∀ e ∈ tbl, endsWithCI e.1 sp = false) : familyAux tbl sp = "Unknown" := by
  induction tbl with
  | nil => rfl
  | cons a t ih =>
    have ha : endsWithCI a.1 sp = false := h a (List.mem_cons_self a t)
    simp only [familyAux, ha, Bool.false_eq_true, if_false]
    exact ih (fun x hx => h x (List.mem_cons_of_mem a hx))

theorem familyAux_mem (sp : List Char) (tbl : List (List Char × String)) :
    familyAux tbl sp ∈ "Unknown" :: tbl.map Prod.snd := by
  induction tbl with
  | nil => exact List.mem_cons_self _ _
  | cons a t ih =>
    by_cases ha : endsWithCI a.1 sp = true
    · simp only [familyAux, ha, if_true]
      exact List.mem_cons_of_mem _ (List.mem_cons_self _ _)
    · have ha' : endsWithCI a.1 sp = false := by
        cases hb : endsWithCI a.1 sp
        · rfl
        · exact absurd hb ha
      simp only [familyAux, ha', Bool.false_eq_true, if_false]
      rcases List.mem_cons.mp ih with h0 | h0
      · rw [h0]; exact List.mem_cons_self _ _
      · exact List.mem_cons_of_mem _ (List.mem_cons_of_mem _ h0)

/-- C6: get_family assigns the family of the FIRST suffix rule in table order
whose pattern matches case-insensitively at the end of the derived species, and
"Unknown" when no rule matches; its result always lies in the closed set of
table families plus "Unknown" (the function is total, so classification never
raises). -/
theorem get_family_first_match :
    ∀ name : List Char,
      get_family name ∈ "Unknown" :: familyTable.map Prod.snd
      ∧ ((∀ e ∈ familyTable, endsWithCI e.1 (isolate_species name) = false) →
          get_family name = "Unknown")
      ∧ (∀ (pre : List (List Char × String)) (e : List Char × String)
           (post : List (List Char × String)),
           familyTable = pre ++ e :: post →
           endsWithCI e.1 (isolate_species name) = true →
           (∀ x ∈ pre, endsWithCI x.1 (isolate_species name) = false) →
           get_family name = e.2) := by
  intro name
  refine ⟨familyAux_mem _ familyTable, ?_, ?_⟩
  · intro h
    exact familyAux_no_hit _ familyTable h
  · intro pre e post htbl he hpre
    unfold get_family
    rw [htbl]
    exact familyAux_append _ pre e post hpre he

/-- C6 witness: the first-match rule applied to "Ethanol-1", whose species
"Ethanol" misses the "ate" rule and hits the "ol" rule. -/
theorem c6_witness : get_family "Ethanol-1".data = "Alcohols" :=
  (get_family_first_match "Ethanol-1".data).2.2 [("ate".data, "Acetates")]
    ("ol".data, "Alcohols")
    [("al".data, "Aldehydes"), ("ane".data, "Alkanes"), ("ene".data, "Alkenes"),
     ("yne".data, "Alkynes"), ("ine".data, "Amines"),
     ("oic acid".data, "Carboxylic Acids"), ("ether".data, "Ethers"),
     ("one".data, "Ketones")]
    rfl (by decide) (by decide)

theorem jsonizeAux_ok (correct : Bool) (sz : ℕ) :
    ∀ (rows acc : List (String × List ℚ)), (∀ r ∈ rows, r.2.length = sz) →
      ∃ out, jsonizeAux correct sz acc rows = Except.ok out := by
  intro rows
  induction rows with
  | nil => intro acc _; exact ⟨acc, rfl⟩
  | cons r rest ih =>
    intro acc hall
    obtain ⟨name, spectrum⟩ := r
    have hlen : spectrum.length = sz := hall (name, spectrum) (List.mem_cons_self _ _)
    have hcond : ¬(spectrum.length ≠ sz) := by simp [hlen]
    simp only [jsonizeAux, if_neg hcond]
    exact ih _ (fun x hx => hall x (List.mem_cons_of_mem _ hx))

theorem jsonizeAux_err (correct : Bool) (sz : ℕ) :
    ∀ (rows acc : List (String × List ℚ)), (∃ r ∈ rows, r.2.length ≠ sz) →
      ∃ r, r ∈ rows ∧ r.2.length ≠ sz ∧
        jsonizeAux correct sz acc rows = Except.error (cName correct r.1) := by
  intro rows
  induction rows with
  | nil =>
    intro acc h
    obtain ⟨r, hr, _⟩ := h
    exact absurd hr (List.not_mem_nil r)
  | cons r rest ih =>
    intro acc h
    obtain ⟨name, spectrum⟩ := r
    by_cases hlen : spectrum.length = sz
    · have hcond : ¬(spectrum.length ≠ sz) := by simp [hlen]
      have hrest : ∃ x ∈ rest, x.2.length ≠ sz := by
        obtain ⟨x, hx, hxl⟩ := h
        rcases List.mem_cons.mp hx with rfl | hx2
        · exact absurd hlen hxl
        · exact ⟨x, hx2, hxl⟩
      obtain ⟨x, hx, hxl, hout⟩ := ih (upsert (cName correct name) spectrum acc) hrest
      refine ⟨x, List.mem_cons_of_mem _ hx, hxl, ?_⟩
      simp only [jsonizeAux, if_neg hcond]
      exact hout
    · refine ⟨(name, spectrum), List.mem_cons_self _ _, hlen, ?_⟩
      simp only [jsonizeAux, if_pos hlen]

/-- C7: packaging a nonempty row sequence succeeds exactly when every spectrum
has the length of the first spectrum; a row of a different length makes jsonize
fail with a shape-mismatch error naming the offending (corrected) instance name,
and the error result carries no packaged output. -/
theorem jsonize_shape_validation :
    ∀ (correct : Bool) (first : String × List ℚ) (rest : List (String × List ℚ)),
      ((∀ r ∈ rest, r.2.length = first.2.length) →
        ∃ pkg, jsonize correct (first :: rest) = Except.ok pkg)
      ∧ ((∃ r ∈ rest, r.2.length ≠ first.2.length) →
        ∃ r, r ∈ first :: rest ∧ r.2.length ≠ first.2.length ∧
          jsonize correct (first :: rest)
            = Except.error (JsonizeError.shapeMismatch (cName correct r.1))) := by
  intro correct first rest
  obtain ⟨name, spectrum⟩ := first
  constructor
  · intro hall
    have hall2 : ∀ r ∈ (name, spectrum) :: rest, r.2.length = spectrum.length := by
      intro r hr
      rcases List.mem_cons.mp hr with rfl | hr2
      · rfl
      · exact hall r hr2
    obtain ⟨out, hout⟩ := jsonizeAux_ok correct spectrum.length ((name, spectrum) :: rest) [] hall2
    exact ⟨package out spectrum.length, by simp only [jsonize, hout]⟩
  · intro hbad
    have hbad2 : ∃ r ∈ (name, spectrum) :: rest, r.2.length ≠ spectrum.length := by
      obtain ⟨r, hr, hrl⟩ := hbad
      exact ⟨r, List.mem_cons_of_mem _ hr, hrl⟩
    obtain ⟨r, hr, hrl, hout⟩ :=
      jsonizeAux_err correct spectrum.length ((name, spectrum) :: rest) [] hbad2
    exact ⟨r, hr, hrl, by simp only [jsonize, hout]⟩

/-- C7 witness: a concrete two-row sequence whose second spectrum has a
different length from the first fails with the shape-mismatch error naming the
second instance. -/
theorem c7_witness :
    ∃ r, r ∈ [(("Ethanol-1" : String), ([1, 2] : List ℚ)), ("Methanol-1", [3, 4, 5])]
      ∧ r.2.length ≠ ([1, 2] : List ℚ).length
      ∧ jsonize false [(("Ethanol-1" : String), ([1, 2] : List ℚ)), ("Methanol-1", [3, 4, 5])]
          = Except.error (JsonizeError.shapeMismatch (cName false r.1)) :=
  (jsonize_shape_validation false ("Ethanol-1", [1, 2]) [("Methanol-1", [3, 4, 5])]).2
    ⟨("Methanol-1", [3, 4, 5]), List.mem_cons_self _ _, by decide⟩

theorem upsert_keys (k : String) (v : List ℚ) (l : List (String × List ℚ)) :
    (upsert k v l).map Prod.fst
      = if k ∈ l.map Prod.fst then l.map Prod.fst else l.map Prod.fst ++ [k] := by
  induction l with
  | nil => simp [upsert]
  | cons p t ih =>
    obtain ⟨k0, v0⟩ := p
    by_cases hk : k0 = k
    · subst hk
      simp [upsert]
    · simp only [upsert, if_neg hk, List.map_cons]
      rw [ih]
      by_cases hmem : k ∈ t.map Prod.fst
      · have hcons : k ∈ k0 :: t.map Prod.fst := List.mem_cons_of_mem _ hmem
        simp [hmem, hcons]
      · have hnot : k ∉ (k0 :: t.map Prod.fst) := by
          intro hc
          rcases List.mem_cons.mp hc with rfl | hc2
          · exact hk rfl
          · exact hmem hc2
        simp [hmem, hnot]

theorem upsert_keys_nodup (k : String) (v : List ℚ) (l : List (String × List ℚ))
    (h : (l.map Prod.fst).Nodup) : ((upsert k v l).map Prod.fst).Nodup := by
  rw [upsert_keys]
  by_cases hmem : k ∈ l.map Prod.fst
  · rw [if_pos hmem]; exact h
  · rw [if_neg hmem, List.nodup_append]
    refine ⟨h, List.nodup_singleton k, ?_⟩
    intro a ha hb
    rw [List.mem_singleton] at hb
    subst hb
    exact hmem ha

theorem upsert_keys_mem (k : String) (v : List ℚ) (l : List (String × List ℚ)) (n : String) :
    n ∈ (upsert k v l).map Prod.fst ↔ n = k ∨ n ∈ l.map Prod.fst := by
  rw [upsert_keys]
  by_cases hmem : k ∈ l.map Prod.fst
  · rw [if_pos hmem]
    constructor
    · exact fun h => Or.inr h
    · rintro (rfl | h)
      · exact hmem
      · exact h
  · rw [if_neg hmem]
    simp [List.mem_append, List.mem_singleton, or_comm]

theorem alookup_upsert (k : String) (v : List ℚ) (l : List (String × List ℚ)) (n : String) :
    alookup (upsert k v l) n = if n = k then some v else alookup l n := by
  induction l with
  | nil =>
    by_cases hn : n = k
    · subst hn; simp [upsert, alookup]
    · simp [upsert, alookup, hn, Ne.symm hn]
  | cons p t ih =>
    obtain ⟨k0, v0⟩ := p
    by_cases hk : k0 = k
    · subst hk
      by_cases hn : n = k0
      · subst hn; simp [upsert, alookup]
      · simp [upsert, alookup, hn, Ne.symm hn]
    · by_cases hn : n = k0
      · have hnk : ¬(n = k) := fun he => hk (hn.symm.trans he)
        simp [upsert, alookup, hk, hnk, hn.symm]
      · simp [upsert, alookup, hk, Ne.symm hn, ih]

theorem alookup_of_mem_nodup :
    ∀ (l : List (String × List ℚ)) (p : String × List ℚ),
      (l.map Prod.fst).Nodup → p ∈ l → alookup l p.1 = some p.2 := by
  intro l
  induction l with
  | nil => intro p _ hp; exact absurd hp (List.not_mem_nil p)
  | cons q t ih =>
    intro p hnd hp
    obtain ⟨kq, vq⟩ := q
    have hnd2 := List.nodup_cons.mp (show (kq :: t.map Prod.fst).Nodup from hnd)
    rcases List.mem_cons.mp hp with rfl | hp2
    · simp [alookup]
    · have hne : ¬(kq = p.1) := by
        intro he
        exact hnd2.1 (he ▸ List.mem_map_of_mem Prod.fst hp2)
      simp only [alookup, if_neg hne]
      exact ih p hnd2.2 hp2

theorem getLast?_cons_some {α : Type} :
    ∀ (fs : List α) (f : α), ∃ g, (f :: fs).getLast? = some g := by
  intro fs
  induction fs with
  | nil => intro f; exact ⟨f, rfl⟩
  | cons f2 fs2 ih => intro f; rw [List.getLast?_cons_cons]; exact ih f2

theorem lastSpectrumFor_cons (correct : Bool) (name : String) (spectrum : List ℚ)
    (rest : List (String × List ℚ)) (n : String) :
    lastSpectrumFor correct ((name, spectrum) :: rest) n
      = if n = cName correct name
        then (lastSpectrumFor correct rest n <|> some spectrum)
        else lastSpectrumFor correct rest n := by
  by_cases hn : n = cName correct name
  · rw [if_pos hn]
    simp only [lastSpectrumFor, procRows, List.map_cons, List.filter_cons]
    have hd : (decide ((cName correct name, spectrum).1 = n)) = true := by
      simp [hn]
    rw [if_pos hd]
    cases hF : (rest.map (fun r => (cName correct r.1, r.2))).filter
        (fun p => decide (p.1 = n)) with
    | nil => simp
    | cons f fs =>
      obtain ⟨g, hg⟩ := getLast?_cons_some fs f
      rw [List.getLast?_cons_cons, hg]
      simp [hg]
  · rw [if_neg hn]
    simp only [lastSpectrumFor, procRows, List.map_cons, List.filter_cons]
    have hd : (decide ((cName correct name, spectrum).1 = n)) = false := by
      simp
      intro he
      exact absurd he.symm hn
    rw [if_neg (by simp [hd])]

theorem jsonizeAux_ok_spec (correct : Bool) (sz : ℕ) :
    ∀ (rows acc out : List (String × List ℚ)),
      jsonizeAux correct sz acc rows = Except.ok out →
      ((acc.map Prod.fst).Nodup → (out.map Prod.fst).Nodup)
      ∧ (∀ n, n ∈ out.map Prod.fst
          ↔ (∃ r ∈ rows, cName correct r.1 = n) ∨ n ∈ acc.map Prod.fst)
      ∧ (∀ n, alookup out n = (lastSpectrumFor correct rows n <|> alookup acc n)) := by
  intro rows
  induction rows with
  | nil =>
    intro acc out h
    have hao : acc = out := by simpa [jsonizeAux] using h
    subst hao
    refine ⟨fun hn => hn, ?_, ?_⟩
    · intro n
      simp
    · intro n
      simp [lastSpectrumFor, procRows]
  | cons r rest ih =>
    intro acc out h
    obtain ⟨name, spectrum⟩ := r
    by_cases hlen : spectrum.length = sz
    · have hcond : ¬(spectrum.length ≠ sz) := by simp [hlen]
      simp only [jsonizeAux, if_neg hcond] at h
      obtain ⟨ihnd, ihmem, ihlook⟩ := ih (upsert (cName correct name) spectrum acc) out h
      refine ⟨?_, ?_, ?_⟩
      · intro hacc
        exact ihnd (upsert_keys_nodup _ _ _ hacc)
      · intro n
        rw [ihmem n, upsert_keys_mem]
        constructor
        · rintro (⟨x, hx, hxn⟩ | rfl | hmem)
          · exact Or.inl ⟨x, List.mem_cons_of_mem _ hx, hxn⟩
          · exact Or.inl ⟨(name, spectrum), List.mem_cons_self _ _, rfl⟩
          · exact Or.inr hmem
        · rintro (⟨x, hx, hxn⟩ | hmem)
          · rcases List.mem_cons.mp hx with rfl | hx2
            · exact Or.inr (Or.inl hxn.symm)
            · exact Or.inl ⟨x, hx2, hxn⟩
          · exact Or.inr (Or.inr hmem)
      · intro n
        rw [ihlook n, alookup_upsert, lastSpectrumFor_cons]
        by_cases hn : n = cName correct name
        · rw [if_pos hn, if_pos hn]
          cases hL : lastSpectrumFor correct rest n
          · simp
          · simp
        · rw [if_neg hn, if_neg hn]
    · simp only [jsonizeAux, if_pos hlen] at h
      exact absurd h (by simp)

theorem count_map_filter {α : Type} (f : α → String) (l : List α) (s : String) :
    (l.map f).count s = (l.filter (fun x => decide (f x = s))).length := by
  induction l with
  | nil => rfl
  | cons a t ih =>
    rw [List.map_cons, List.filter_cons, List.count_cons]
    by_cases ha : f a = s
    · rw [if_pos (by simp [ha]), if_pos (by simp [ha]), List.length_cons, ih]
    · rw [if_neg (by simp [ha]), if_neg (by simp [ha]), ih]
      omega

theorem package_names (temp : List (String × List ℚ)) (sz : ℕ) :
    (package temp sz).chem_data.map ChemRecord.name = temp.map Prod.fst := by
  simp [package, List.map_map, Function.comp]

/-- C10: when jsonize succeeds, rows sharing one (corrected) instance name
collapse into a single record: the packaged names are distinct, they are exactly
the corrected row names, the stored spectrum of each record is the one of the
LAST row carrying that name (earlier duplicates are silently overwritten), and
the species and family counts count each distinct name exactly once. -/
theorem jsonize_dup_semantics :
    ∀ (correct : Bool) (rows : List (String × List ℚ)) (pkg : Packaged),
      jsonize correct rows = Except.ok pkg →
      (pkg.chem_data.map ChemRecord.name).Nodup
      ∧ (∀ n, n ∈ pkg.chem_data.map ChemRecord.name ↔ ∃ r ∈ rows, cName correct r.1 = n)
      ∧ (∀ rec ∈ pkg.chem_data, lastSpectrumFor correct rows rec.name = some rec.spectrum)
      ∧ (∀ pr ∈ pkg.species_count,
          pr.2 = ((pkg.chem_data.map ChemRecord.name).filter
            (fun n => decide (speciesOf n = pr.1))).length)
      ∧ (∀ pr ∈ pkg.family_count,
          pr.2 = ((pkg.chem_data.map ChemRecord.name).filter
            (fun n => decide (familyOf n = pr.1))).length) := by
  intro correct rows pkg h
  cases rows with
  | nil => exact absurd h (by simp [jsonize])
  | cons r rest =>
    obtain ⟨name, spectrum⟩ := r
    simp only [jsonize] at h
    cases haux : jsonizeAux correct spectrum.length [] ((name, spectrum) :: rest) with
    | error e =>
      rw [haux] at h
      exact absurd h (by simp)
    | ok temp =>
      rw [haux] at h
      injection h with hpkg
      subst hpkg
      obtain ⟨hnd', hmem', hlook'⟩ :=
        jsonizeAux_ok_spec correct spectrum.length ((name, spectrum) :: rest) [] temp haux
      have hnd : (temp.map Prod.fst).Nodup := hnd' (by simp)
      have hnames := package_names temp spectrum.length
      refine ⟨?_, ?_, ?_, ?_, ?_⟩
      · rw [hnames]; exact hnd
      · intro n
        rw [hnames, hmem' n]
        simp
      · intro rec hrec
        simp only [package] at hrec
        obtain ⟨p, hp, rfl⟩ := List.mem_map.mp hrec
        show lastSpectrumFor correct ((name, spectrum) :: rest) p.1 = some p.2
        have hlast := hlook' p.1
        rw [alookup_of_mem_nodup temp p hnd hp] at hlast
        cases hL : lastSpectrumFor correct ((name, spectrum) :: rest) p.1 with
        | none =>
          rw [hL] at hlast
          simp [alookup] at hlast
        | some v =>
          rw [hL] at hlast
          simp [alookup] at hlast
          rw [hlast]
      · intro pr hpr
        rw [hnames]
        simp only [package, ordered_and_counted] at hpr
        obtain ⟨s, hs, rfl⟩ := List.mem_map.mp hpr
        exact count_map_filter speciesOf (temp.map Prod.fst) s
      · intro pr hpr
        rw [hnames]
        simp only [package, ordered_and_counted] at hpr
        obtain ⟨s, hs, rfl⟩ := List.mem_map.mp hpr
        exact count_map_filter familyOf (temp.map Prod.fst) s

/-- C10 witness: the duplicate-row semantics applied to rowsDup, where the name
"Ethanol-1" occurs twice. -/
theorem c10_witness :
    jsonize false rowsDup = Except.ok pkgDup
    ∧ (pkgDup.chem_data.map ChemRecord.name).Nodup
    ∧ (∀ rec ∈ pkgDup.chem_data, lastSpectrumFor false rowsDup rec.name = some rec.spectrum)
    ∧ (∀ pr ∈ pkgDup.species_count,
        pr.2 = ((pkgDup.chem_data.map ChemRecord.name).filter
          (fun n => decide (speciesOf n = pr.1))).length) := by
  have h : jsonize false rowsDup = Except.ok pkgDup := by rfl
  exact ⟨h, (jsonize_dup_semantics false rowsDup pkgDup h).1,
    (jsonize_dup_semantics false rowsDup pkgDup h).2.2.1,
    (jsonize_dup_semantics false rowsDup pkgDup h).2.2.2.1⟩

theorem omap_map_comm {α β γ : Type} (f : α → Option β) (g : β → γ) :
    ∀ l : List α, omap (fun a => (f a).map g) l = (omap f l).map (fun bs => bs.map g) := by
  intro l
  induction l with
  | nil => rfl
  | cons a as ih =>
    cases hfa : f a with
    | none => simp [omap, hfa]
    | some b =>
      cases hrec : omap f as with
      | none => simp [omap, hfa, hrec, ih]
      | some bs => simp [omap, hfa, hrec, ih]

theorem csum_map_scale (a : ℚ) :
    ∀ l : List CQ, csum (l.map (CQ.scale a)) = CQ.scale a (csum l) := by
  intro l
  induction l with
  | nil => simp [csum, CQ.scale]
  | cons z zs ih =>
    simp only [List.map_cons, csum, ih, CQ.add, CQ.scale, CQ.mk.injEq]
    constructor <;> ring

theorem divN_scale (a : ℚ) (z : CQ) (n : ℕ) :
    (CQ.scale a z).divN n = CQ.scale a (z.divN n) := by
  simp only [CQ.scale, CQ.divN, CQ.mk.injEq]
  constructor <;> ring

theorem base_centroid_cons (z : CQ) (zs : List CQ) :
    base_centroid (z :: zs) = some ((csum (z :: zs)).divN (zs.length + 1)) := rfl

theorem base_centroid_map_scale (a : ℚ) (l : List CQ) :
    base_centroid (l.map (CQ.scale a)) = (base_centroid l).map (CQ.scale a) := by
  cases l with
  | nil => rfl
  | cons z zs =>
    have hcs := csum_map_scale a (z :: zs)
    rw [List.map_cons] at hcs
    rw [List.map_cons, base_centroid_cons, base_centroid_cons, hcs, divN_scale]
    simp [List.length_map]

theorem scale_divN_cancel (z : CQ) (n : ℕ) (h : n ≠ 0) :
    CQ.scale ((n : ℚ)) (z.divN n) = z := by
  have hq : ((n : ℚ)) ≠ 0 := Nat.cast_ne_zero.mpr h
  obtain ⟨x, y⟩ := z
  simp only [CQ.scale, CQ.divN, CQ.mk.injEq]
  constructor <;> field_simp

/-- C4 counterexample: with two axes and one instance of axial values (1, 0),
the code species centroid (mean of the N-scaled instance centroids) is 1, while
the claim, mean of the UNSCALED instance centroids, gives one half. -/
theorem c4_counterexample :
    species_centroid rootsOfUnity2 [[1, 0]] = some ⟨1, 0⟩
    ∧ species_centroid_per_spec rootsOfUnity2 [[1, 0]] = some ⟨1 / 2, 0⟩
    ∧ (⟨1, 0⟩ : CQ) ≠ ⟨1 / 2, 0⟩ := by
  refine ⟨?_, ?_, ?_⟩
  · simp only [species_centroid, omap, instance_centroid, base_centroid, instance_points,
      rootsOfUnity2, CQ.mk.injEq]
    norm_num [csum, CQ.add, CQ.scale, CQ.divN]
  · simp only [species_centroid_per_spec, omap, instance_centroid_unscaled, base_centroid,
      instance_points, rootsOfUnity2, CQ.mk.injEq]
    norm_num [csum, CQ.add, CQ.scale, CQ.divN]
  · simp only [ne_eq, CQ.mk.injEq, not_and]
    intro h
    norm_num at h

/-- C4 (amended): the instance centroid is the mean of the axial points times N
(equivalently, for an instance with one axial value per pole, the plain sum of
its axial points), and the species centroid is the mean of the SCALED instance
centroids: it equals N times the mean of the unscaled ones, not that mean
itself. -/
theorem species_centroid_scaling :
    (∀ (poles : List CQ) (aavs : List ℚ), poles ≠ [] → aavs.length = poles.length →
      instance_centroid poles aavs = some (csum (instance_points poles aavs)))
    ∧ (∀ (poles : List CQ) (insts : List (List ℚ)) (z : CQ),
        species_centroid_per_spec poles insts = some z →
        species_centroid poles insts = some (CQ.scale ((poles.length : ℚ)) z)) := by
  constructor
  · intro poles aavs hne hlen
    have hlen2 : (instance_points poles aavs).length = poles.length := by
      simp [instance_points, hlen]
    have hpos : poles.length ≠ 0 := fun h0 => hne (List.length_eq_zero.mp h0)
    have hne2 : (instance_points poles aavs).isEmpty = false := by
      cases hip : instance_points poles aavs with
      | nil => rw [hip] at hlen2; exact absurd hlen2.symm hpos
      | cons x xs => rfl
    simp [instance_centroid, base_centroid, hne2, hlen2, scale_divN_cancel _ _ hpos]
  · intro poles insts z hspec
    unfold species_centroid_per_spec at hspec
    cases hom : omap (instance_centroid_unscaled poles) insts with
    | none => rw [hom] at hspec; exact Option.noConfusion hspec
    | some cs =>
      rw [hom] at hspec
      simp only at hspec
      have hfun : omap (instance_centroid poles) insts
          = (omap (instance_centroid_unscaled poles) insts).map
              (fun bs => bs.map (CQ.scale ((poles.length : ℚ)))) :=
        omap_map_comm (instance_centroid_unscaled poles) (CQ.scale ((poles.length : ℚ))) insts
      unfold species_centroid
      rw [hfun, hom]
      show base_centroid (cs.map (CQ.scale ((poles.length : ℚ))))
        = some (CQ.scale ((poles.length : ℚ)) z)
      rw [base_centroid_map_scale, hspec]
      rfl

/-- C4 witness: the scaling relation applied at two axes and one instance of
axial values (1, 0), whose unscaled mean is one half. -/
theorem c4_witness :
    species_centroid rootsOfUnity2 [[1, 0]]
      = some (CQ.scale ((rootsOfUnity2.length : ℚ)) ⟨1 / 2, 0⟩) :=
  species_centroid_scaling.2 rootsOfUnity2 [[1, 0]] ⟨1 / 2, 0⟩ (by
    simp only [species_centroid_per_spec, omap, instance_centroid_unscaled, base_centroid,
      instance_points, rootsOfUnity2, CQ.mk.injEq]
    norm_num [csum, CQ.add, CQ.scale, CQ.divN])

/-- C5: each centroid one level up is the arithmetic mean of the centroids one
level down, one equal-weight summand per child regardless of how many leaves a
child holds; in particular a family of two species whose centroids are 1 and i
has centroid one half plus one half i, whatever the instance counts of the two
species. -/
theorem family_centroid_unweighted :
    (∀ (poles : List CQ) (insts : List (List ℚ)) (cs : List CQ),
      omap (instance_centroid poles) insts = some cs → cs ≠ [] →
      species_centroid poles insts = some ((csum cs).divN cs.length))
    ∧ (∀ (poles : List CQ) (specs : List (List (List ℚ))) (cs : List CQ),
      omap (species_centroid poles) specs = some cs → cs ≠ [] →
      family_centroid poles specs = some ((csum cs).divN cs.length))
    ∧ (∀ (poles : List CQ) (S1 S2 : List (List ℚ)),
        species_centroid poles S1 = some ⟨1, 0⟩ →
        species_centroid poles S2 = some ⟨0, 1⟩ →
        family_centroid poles [S1, S2] = some ⟨1 / 2, 1 / 2⟩) := by
  refine ⟨?_, ?_, ?_⟩
  · intro poles insts cs hom hne
    unfold species_centroid
    rw [hom]
    have hemp : cs.isEmpty = false := by
      cases cs with
      | nil => exact absurd rfl hne
      | cons a t => rfl
    simp [base_centroid, hemp]
  · intro poles specs cs hom hne
    unfold family_centroid
    rw [hom]
    have hemp : cs.isEmpty = false := by
      cases cs with
      | nil => exact absurd rfl hne
      | cons a t => rfl
    simp [base_centroid, hemp]
  · intro poles S1 S2 h1 h2
    unfold family_centroid
    have hom : omap (species_centroid poles) [S1, S2] = some [⟨1, 0⟩, ⟨0, 1⟩] := by
      simp [omap, h1, h2]
    rw [hom]
    simp only [base_centroid, csum, CQ.add, CQ.divN, CQ.mk.injEq, List.isEmpty_cons,
      List.length_cons, List.length_nil]
    norm_num

/-- C5 witness: the two-species mean applied with the fourth roots of unity to a
species with one instance (centroid 1) and a species with three instances
(centroid i): the family centroid is their unweighted mean. -/
theorem c5_witness :
    family_centroid rootsOfUnity4 [specA, specB] = some ⟨1 / 2, 1 / 2⟩ :=
  family_centroid_unweighted.2.2 rootsOfUnity4 specA specB
    (by
      simp only [species_centroid, omap, instance_centroid, base_centroid, instance_points,
        rootsOfUnity4, specA, CQ.mk.injEq]
      norm_num [csum, CQ.add, CQ.scale, CQ.divN])
    (by
      simp only [species_centroid, omap, instance_centroid, base_centroid, instance_points,
        rootsOfUnity4, specB, CQ.mk.injEq]
      norm_num [csum, CQ.add, CQ.scale, CQ.divN])

/-- C9 counterexample: for a zero-member group the centroid computation yields
an error (Python raises ZeroDivisionError at sum([])/0), embedded as none: no
NaN value is produced or propagated. -/
theorem c9_counterexample : base_centroid [] = none := rfl

/-- C9 (amended): the centroid computation has no empty-group guard: it divides
by the group size for every nonempty group, and for the empty group - and only
then - it raises a division-by-zero error, producing no value (NaN or
otherwise). -/
theorem base_centroid_empty_guardless :
    (∀ points : List CQ, base_centroid points = none ↔ points = [])
    ∧ (∀ (z : CQ) (zs : List CQ),
        base_centroid (z :: zs) = some ((csum (z :: zs)).divN (zs.length + 1))) := by
  constructor
  · intro points
    cases points with
    | nil => simp [base_centroid]
    | cons z zs => simp [base_centroid]
  · intro z zs
    rfl

theorem get?_lt : ∀ (l : List ℚ) (n : ℕ), n < l.length → l.get? n = some (l.getD n 0) := by
  intro l
  induction l with
  | nil => intro n hn; simp at hn
  | cons x xs ih =>
    intro n hn
    cases n with
    | zero => rfl
    | succ m => exact ih m (Nat.lt_of_succ_lt_succ hn)

theorem getD_mem : ∀ (l : List ℚ) (n : ℕ), n < l.length → l.getD n 0 ∈ l := by
  intro l
  induction l with
  | nil => intro n hn; simp at hn
  | cons x xs ih =>
    intro n hn
    cases n with
    | zero => exact List.mem_cons_self _ _
    | succ m => exact List.mem_cons_of_mem _ (ih m (Nat.lt_of_succ_lt_succ hn))

theorem foldl_max_le_iff :
    ∀ (ys : List ℚ) (a c : ℚ), ys.foldl max a ≤ c ↔ a ≤ c ∧ ∀ y ∈ ys, y ≤ c := by
  intro ys
  induction ys with
  | nil => intro a c; simp
  | cons y t ih =>
    intro a c
    rw [List.foldl_cons, ih]
    constructor
    · rintro ⟨hmax, hall⟩
      rw [max_le_iff] at hmax
      refine ⟨hmax.1, ?_⟩
      intro z hz
      rcases List.mem_cons.mp hz with rfl | hz2
      · exact hmax.2
      · exact hall z hz2
    · rintro ⟨ha, hall⟩
      refine ⟨max_le_iff.mpr ⟨ha, hall y (List.mem_cons_self _ _)⟩, ?_⟩
      intro z hz
      exact hall z (List.mem_cons_of_mem _ hz)

theorem foldl_max_mem :
    ∀ (ys : List ℚ) (a : ℚ), ys.foldl max a = a ∨ ys.foldl max a ∈ ys := by
  intro ys
  induction ys with
  | nil => intro a; exact Or.inl rfl
  | cons y t ih =>
    intro a
    rw [List.foldl_cons]
    rcases ih (max a y) with h | h
    · rcases max_choice a y with hm | hm
      · exact Or.inl (h.trans hm)
      · right
        rw [h, hm]
        exact List.mem_cons_self _ _
    · exact Or.inr (List.mem_cons_of_mem _ h)

theorem pymax_spec :
    ∀ (l : List ℚ) (m : ℚ), pymax l = some m → m ∈ l ∧ ∀ x ∈ l, x ≤ m := by
  intro l m h
  cases l with
  | nil => exact Option.noConfusion h
  | cons x xs =>
    have hm : m = xs.foldl max x := by
      have := h.symm
      simpa [pymax] using this
    subst hm
    constructor
    · rcases foldl_max_mem xs x with h0 | h0
      · rw [h0]; exact List.mem_cons_self _ _
      · exact List.mem_cons_of_mem _ h0
    · intro z hz
      have hle : xs.foldl max x ≤ xs.foldl max x := le_refl _
      rw [foldl_max_le_iff] at hle
      rcases List.mem_cons.mp hz with rfl | hz2
      · exact hle.1
      · exact hle.2 z hz2

theorem omap_some_of_forall {α β : Type} (f : α → Option β) (g : α → β) :
    ∀ l : List α, (∀ a ∈ l, f a = some (g a)) → omap f l = some (l.map g) := by
  intro l
  induction l with
  | nil => intro _; rfl
  | cons a t ih =>
    intro h
    have ha := h a (List.mem_cons_self _ _)
    simp [omap, ha, ih (fun x hx => h x (List.mem_cons_of_mem _ hx))]

theorem count_true_map {α : Type} (f : α → Bool) (l : List α) :
    (l.map f).count true = l.countP f := by
  induction l with
  | nil => rfl
  | cons a t ih =>
    rw [List.map_cons, List.count_cons, List.countP_cons, ih]
    cases hfa : f a <;> simp [hfa]

/-- C8 counterexample: with the single prediction vector (0.5, 0.5) and true
axis 1, the code counts the instance correct (the true-axis value ties with the
maximum) giving score 1, while argmax is axis 0, so the argmax fraction of the
claim parenthetical is 0; moreover with three instances and one correct the
code returns the rounded 0.3333, not the exact fraction one third. -/
theorem c8_counterexample :
    fermi_score [[1 / 2, 1 / 2]] 1 = some 1
    ∧ argmaxI [1 / 2, 1 / 2] = some 0
    ∧ argmax_fraction [[1 / 2, 1 / 2]] 1 = 0
    ∧ fermi_score [[1, 0], [0, 1], [0, 1]] 0 = some (3333 / 10000)
    ∧ (3333 / 10000 : ℚ) ≠ 1 / 3 := by
  have hr1 : pyRound4 1 = 1 := by norm_num [pyRound4, roundHalfEven]
  have hr2 : pyRound4 (1 / 3) = 3333 / 10000 := by norm_num [pyRound4, roundHalfEven]
  refine ⟨?_, ?_, ?_, ?_, by norm_num⟩
  · norm_num [fermi_score, omap, pymax, List.get?, List.count_cons, List.count_nil,
      List.countP_cons, List.countP_nil, List.foldl, hr1]
  · norm_num [argmaxI, pymax, firstIdxOf, List.foldl]
  · norm_num [argmax_fraction, argmaxI, pymax, firstIdxOf, List.foldl,
      List.countP_cons, List.countP_nil]
  · norm_num [fermi_score, omap, pymax, List.get?, List.count_cons, List.count_nil,
      List.countP_cons, List.countP_nil, List.foldl, hr2]

/-- C8 (amended): for a nonempty collection of prediction vectors with the true
family axis in range of each vector, the rank score is the fraction of
instances whose value on the true axis attains the vector maximum - a tie at
the maximum counts as correct even when an earlier axis also attains it, unlike
argmax - rounded half-to-even at four decimal places. -/
theorem fermi_score_characterization :
    ∀ (predictions : List (List ℚ)) (hotbit : ℕ),
      predictions ≠ [] →
      (∀ pred ∈ predictions, hotbit < pred.length) →
      fermi_score predictions hotbit
        = some (pyRound4
            (((predictions.countP
                (fun pred => decide (∀ x ∈ pred, x ≤ pred.getD hotbit 0))) : ℚ)
              / (predictions.length : ℚ))) := by
  intro preds hotbit hne hlt
  have htargets : omap (fun pred => pred.get? hotbit) preds
      = some (preds.map (fun pred => pred.getD hotbit 0)) :=
    omap_some_of_forall _ _ preds (fun p hp => get?_lt p hotbit (hlt p hp))
  have hcorrects : omap (fun pred =>
      match pymax pred, pred.get? hotbit with
      | some m, some t => some (decide (m = t))
      | _, _ => none) preds
      = some (preds.map (fun pred => decide (∀ x ∈ pred, x ≤ pred.getD hotbit 0))) := by
    apply omap_some_of_forall
    intro p hp
    have hplen := hlt p hp
    have hget := get?_lt p hotbit hplen
    obtain ⟨x, xs, rfl⟩ : ∃ x xs, p = x :: xs := by
      cases p with
      | nil => simp at hplen
      | cons x xs => exact ⟨x, xs, rfl⟩
    rw [hget]
    have hiff : (xs.foldl max x = (x :: xs).getD hotbit 0)
        ↔ (∀ z ∈ x :: xs, z ≤ (x :: xs).getD hotbit 0) := by
      have hmem : (x :: xs).getD hotbit 0 ∈ x :: xs := getD_mem _ _ hplen
      have hspec := pymax_spec (x :: xs) (xs.foldl max x) rfl
      constructor
      · intro he
        intro z hz
        rw [← he]
        exact hspec.2 z hz
      · intro hall
        exact le_antisymm (hall _ hspec.1) (hspec.2 _ hmem)
    show some (decide (xs.foldl max x = (x :: xs).getD hotbit 0))
      = some (decide (∀ z ∈ x :: xs, z ≤ (x :: xs).getD hotbit 0))
    exact congrArg some (decide_eq_decide.mpr hiff)
  have hlen0 : preds.length ≠ 0 := fun h0 => hne (List.length_eq_zero.mp h0)
  unfold fermi_score
  rw [htargets, hcorrects]
  show (if preds.length = 0 then none
      else some (pyRound4
        (((preds.map (fun pred => decide (∀ x ∈ pred, x ≤ pred.getD hotbit 0))).count true : ℚ)
          / (preds.length : ℚ)))) = _
  rw [if_neg hlen0, count_true_map]

/-- C8 witness: the attains-the-maximum characterization applied to two concrete
prediction vectors at true axis 1. -/
theorem c8_witness :
    fermi_score [[1 / 2, 1 / 2], [0, 1]] 1
      = some (pyRound4
          (((([[1 / 2, 1 / 2], [0, 1]] : List (List ℚ)).countP
              (fun pred => decide (∀ x ∈ pred, x ≤ pred.getD 1 0))) : ℚ)
            / (([[1 / 2, 1 / 2], [0, 1]] : List (List ℚ)).length : ℚ))) :=
  fermi_score_characterization [[1 / 2, 1 / 2], [0, 1]] 1 (by decide) (by decide)
